import Mathlib

/-!
Verification of the phone-number classification and normalization engine of
`yansongda/rust-phone-utils` (`src/phone.rs`).

Modelling conventions.
Strings are modelled as `List Char` (Rust `&str` as its sequence of
`char`s).  Rust's byte indexing `s[a..b]` is modelled faithfully at the
byte level: the slicing helpers `takeBytes`, `dropBytes` and `sliceBytes`
walk the characters counting their UTF-8 byte widths (`utf8Len`, Rust
`char::len_utf8`) and return `none` exactly when the index is out of range
or falls inside a multi-byte character — the two conditions under which the
Rust slice operation panics.  A returned slice is a character list again,
which is exact because a valid Rust slice always ends on character
boundaries.

The regex class `\d` of the source's patterns is the regex crate's Unicode
class `\p{Nd}` (decimal digit numbers), modelled by `isNd` over the `Nd`
code-point ranges of Unicode 14.0.0.  Later Unicode versions add further
`Nd` ranges (Kawi, Nag Mundari, ...); none of the theorems below depends on
any range beyond those shared by all Unicode versions (the ASCII digits and
U+0660–U+0669).

Each anchored regex of the source is transcribed as a decidable Boolean
function on `List Char`.  The optional groups `(\+)?`, `(86)?`, `(0)?` at the
head of the mobile/telephone regexes are transcribed as greedy prefix
stripping; this is equivalent to the regex's backtracking semantics because
in each regex the first character allowed after an optional group can never
begin the group itself (after `(\+)?` the continuation starts with `8`, `0`
or `1`, never `+`; after `(86)?` it starts with `0` or `1`, never `8`; after
`(0)?` it starts with `1`, never `0`).
-/

namespace PhoneUtils

/-- Source: enum `PhoneType` in src/phone.rs (Tel, Mobile, Idd, Service, Others). -/
inductive PhoneType where
  | Tel
  | Mobile
  | Idd
  | Service
  | Others
deriving DecidableEq, Repr

/-- Source: enum `MobileVendor` in src/phone.rs (Mobile, Unicom, Telecom, Cbn, Others). -/
inductive MobileVendor where
  | Mobile
  | Unicom
  | Telecom
  | Cbn
  | Others
deriving DecidableEq, Repr

/-- Code-point ranges (inclusive) of the Unicode category `Nd` (decimal
digit number), Unicode 14.0.0 — the class matched by the regex crate's
`\d`. -/
def ndRanges : List (Nat × Nat) :=
  [ (0x30, 0x39), (0x660, 0x669), (0x6F0, 0x6F9),
    (0x7C0, 0x7C9), (0x966, 0x96F), (0x9E6, 0x9EF),
    (0xA66, 0xA6F), (0xAE6, 0xAEF), (0xB66, 0xB6F),
    (0xBE6, 0xBEF), (0xC66, 0xC6F), (0xCE6, 0xCEF),
    (0xD66, 0xD6F), (0xDE6, 0xDEF), (0xE50, 0xE59),
    (0xED0, 0xED9), (0xF20, 0xF29), (0x1040, 0x1049),
    (0x1090, 0x1099), (0x17E0, 0x17E9), (0x1810, 0x1819),
    (0x1946, 0x194F), (0x19D0, 0x19D9), (0x1A80, 0x1A89),
    (0x1A90, 0x1A99), (0x1B50, 0x1B59), (0x1BB0, 0x1BB9),
    (0x1C40, 0x1C49), (0x1C50, 0x1C59), (0xA620, 0xA629),
    (0xA8D0, 0xA8D9), (0xA900, 0xA909), (0xA9D0, 0xA9D9),
    (0xA9F0, 0xA9F9), (0xAA50, 0xAA59), (0xABF0, 0xABF9),
    (0xFF10, 0xFF19), (0x104A0, 0x104A9), (0x10D30, 0x10D39),
    (0x11066, 0x1106F), (0x110F0, 0x110F9), (0x11136, 0x1113F),
    (0x111D0, 0x111D9), (0x112F0, 0x112F9), (0x11450, 0x11459),
    (0x114D0, 0x114D9), (0x11650, 0x11659), (0x116C0, 0x116C9),
    (0x11730, 0x11739), (0x118E0, 0x118E9), (0x11950, 0x11959),
    (0x11C50, 0x11C59), (0x11D50, 0x11D59), (0x11DA0, 0x11DA9),
    (0x16A60, 0x16A69), (0x16AC0, 0x16AC9), (0x16B50, 0x16B59),
    (0x1D7CE, 0x1D7FF), (0x1E140, 0x1E149), (0x1E2F0, 0x1E2F9),
    (0x1E950, 0x1E959), (0x1FBF0, 0x1FBF9) ]

/-- Unicode decimal digit (`\p{Nd}`), the regex crate's `\d`. -/
def isNd (c : Char) : Bool :=
  ndRanges.any (fun r => decide (r.1 ≤ c.toNat) && decide (c.toNat ≤ r.2))

/-- Number of bytes of the UTF-8 encoding of `c` (Rust `char::len_utf8`). -/
def utf8Len (c : Char) : Nat :=
  if c.toNat < 128 then 1
  else if c.toNat < 2048 then 2
  else if c.toNat < 65536 then 3
  else 4

/-- Whether `c` is a one-byte (ASCII) character. -/
def asciiChar (c : Char) : Bool := decide (c.toNat < 128)

/-- Whether every character of `s` is ASCII (one byte in UTF-8), the domain
on which Rust byte positions coincide with character positions. -/
def allAscii (s : List Char) : Bool := s.all asciiChar

/-- Strips the literal `p` from the head of `s` when present, otherwise leaves
`s` unchanged: models an optional anchored group `(p)?` of the source regexes
(see the header comment for why greedy stripping is equivalent here). -/
def dropPrefixOpt (p s : List Char) : List Char :=
  if List.isPrefixOf p s then s.drop p.length else s

/-- Tail of the mobile regex after the optional groups: `1[3-9]\d{9}$`. -/
def mobileCore (s : List Char) : Bool :=
  match s with
  | x :: c :: rest =>
      x == '1' && decide ('3' ≤ c) && decide (c ≤ '9') &&
        rest.length == 9 && rest.all isNd
  | _ => false

/-- Source: `is_mobile`, regex `^(\+)?(86)?(0)?1[3-9]\d{9}$`. -/
def is_mobile (s : List Char) : Bool :=
  mobileCore (dropPrefixOpt ['0'] (dropPrefixOpt ['8', '6'] (dropPrefixOpt ['+'] s)))

/-- Tail of the telephone regex after the optional groups:
`0\d{9,11}([-,]\d{4,7})?$`.  Since neither `-` nor `,` is a decimal digit,
the mandatory digit block is exactly the maximal digit run after the leading
`0`, and the optional extension is whatever follows it. -/
def telephoneCore (s : List Char) : Bool :=
  match s with
  | x :: rest =>
      x == '0' &&
        (decide (9 ≤ (rest.takeWhile isNd).length) &&
         decide ((rest.takeWhile isNd).length ≤ 11) &&
         (match rest.dropWhile isNd with
          | [] => true
          | c :: ext =>
              (c == '-' || c == ',') && decide (4 ≤ ext.length) &&
                decide (ext.length ≤ 7) && ext.all isNd))
  | [] => false

/-- Source: `is_telephone`, regex `^(\+)?(86)?0\d{9,11}([-,]\d{4,7})?$`. -/
def is_telephone (s : List Char) : Bool :=
  telephoneCore (dropPrefixOpt ['8', '6'] (dropPrefixOpt ['+'] s))

/-- Source: `is_service`, regex `^1\d{7}$|^[1,9]\d{4}$`.  Note the character
class `[1,9]` of the source contains the literal comma, so it matches `1`,
`,` and `9`. -/
def is_service (s : List Char) : Bool :=
  match s with
  | c :: rest =>
      (c == '1' && rest.length == 7 && rest.all isNd) ||
        ((c == '1' || c == ',' || c == '9') && rest.length == 4 &&
          rest.all isNd)
  | [] => false

/-- Source: `is_idd`, regex `^00\d{8,}$`. -/
def is_idd (s : List Char) : Bool :=
  match s with
  | a :: b :: rest => a == '0' && b == '0' && decide (8 ≤ rest.length) && rest.all isNd
  | _ => false

/-- Source: `is_phone`, disjunction of the four predicates. -/
def is_phone (s : List Char) : Bool :=
  is_mobile s || is_telephone s || is_service s || is_idd s

/-- Models Rust `&s[..n]` (byte index): `none` exactly when `n` exceeds the
byte length or falls inside a multi-byte character — the panic conditions of
Rust string slicing. -/
def takeBytes : List Char → Nat → Option (List Char)
  | _, 0 => some []
  | [], _ + 1 => none
  | c :: t, n + 1 =>
      if utf8Len c ≤ n + 1 then (takeBytes t (n + 1 - utf8Len c)).map (fun r => c :: r)
      else none

/-- Models Rust `&s[n..]` (byte index): `none` exactly when `n` exceeds the
byte length or falls inside a multi-byte character. -/
def dropBytes : List Char → Nat → Option (List Char)
  | s, 0 => some s
  | [], _ + 1 => none
  | c :: t, n + 1 =>
      if utf8Len c ≤ n + 1 then dropBytes t (n + 1 - utf8Len c)
      else none

/-- Models Rust `&s[a..b]` (byte indices): panics when `a > b`, when either
index is out of range, or when either falls inside a multi-byte character. -/
def sliceBytes (s : List Char) (a b : Nat) : Option (List Char) :=
  if a ≤ b then
    match dropBytes s a with
    | none => none
    | some t => takeBytes t (b - a)
  else none

/-- Source: `to_standard_format`.  The source keeps a running byte offset,
checks a prefix of `number[offset..]` at each step, and finally returns
`&number[offset..]`; every indexing of the source is modelled by `dropBytes`
so that an invalid offset would surface as `none`. -/
def to_standard_format (s : List Char) : Option (List Char) :=
  match dropBytes s 0 with
  | none => none
  | some r0 =>
    match dropBytes s (if List.isPrefixOf ['+'] r0 then 1 else 0) with
    | none => none
    | some r1 =>
      match dropBytes s ((if List.isPrefixOf ['+'] r0 then 1 else 0) +
          (if List.isPrefixOf ['8', '6'] r1 then 2 else 0)) with
      | none => none
      | some r2 =>
        dropBytes s ((if List.isPrefixOf ['+'] r0 then 1 else 0) +
          (if List.isPrefixOf ['8', '6'] r1 then 2 else 0) +
          (if is_mobile r2 && List.isPrefixOf ['0'] r2 then 1 else 0))

/-- Source: `get_segment`.  Branch conditions and byte-slice bounds
transcribed from the source; Rust's short-circuit `||` in the fourth branch
is modelled by testing `starts_with("010")` before slicing `number[..2]`.
`starts_with` with an ASCII pattern agrees with character-prefix testing, so
it is modelled by `List.isPrefixOf`. -/
def get_segment (s : List Char) : Option (PhoneType × List Char) :=
  if is_mobile s then (takeBytes s 7).map (fun k => (PhoneType.Mobile, k))
  else if is_idd s then (sliceBytes s 2 6).map (fun k => (PhoneType.Idd, k))
  else if is_service s then some (PhoneType.Service, s)
  else if List.isPrefixOf ['0', '1', '0'] s then
    (takeBytes s 3).map (fun k => (PhoneType.Tel, k))
  else
    match takeBytes s 2 with
    | none => none
    | some t =>
      if List.isPrefixOf ['0', '2'] t then (takeBytes s 3).map (fun k => (PhoneType.Tel, k))
      else (takeBytes s 4).map (fun k => (PhoneType.Tel, k))

/-- Models Rust `String::to_lowercase` on the alphabets used by the enum
strings (ASCII letters, digits, space, CJK ideographs, which are caseless):
per-character ASCII lowering. -/
def toLowercase (s : List Char) : List Char := s.map Char.toLower

/-- Source: `impl ToString for PhoneType`. -/
def PhoneType.to_string : PhoneType → List Char
  | PhoneType.Tel => "TEL".toList
  | PhoneType.Mobile => "MOBILE".toList
  | PhoneType.Idd => "IDD".toList
  | PhoneType.Service => "SERVICE".toList
  | PhoneType.Others => "OTHERS".toList

/-- Source: `impl From<String> for PhoneType` (lower-cases, then matches). -/
def PhoneType.from_string (v : List Char) : PhoneType :=
  if toLowercase v = "tel".toList then PhoneType.Tel
  else if toLowercase v = "mobile".toList then PhoneType.Mobile
  else if toLowercase v = "idd".toList then PhoneType.Idd
  else if toLowercase v = "service".toList then PhoneType.Service
  else PhoneType.Others

/-- Source: `impl ToString for MobileVendor`. -/
def MobileVendor.to_string : MobileVendor → List Char
  | MobileVendor.Unicom => "10010 联通".toList
  | MobileVendor.Telecom => "10000 电信".toList
  | MobileVendor.Mobile => "10086 移动".toList
  | MobileVendor.Cbn => "10099 广电".toList
  | MobileVendor.Others => "unknown 未知".toList

/-- Source: `impl From<String> for MobileVendor` (lower-cases, then matches
the three alias families per variant). -/
def MobileVendor.from_string (v : List Char) : MobileVendor :=
  if toLowercase v = "10010 联通".toList ∨ toLowercase v = "10010".toList ∨
      toLowercase v = "unicom".toList then MobileVendor.Unicom
  else if toLowercase v = "10000 电信".toList ∨ toLowercase v = "10000".toList ∨
      toLowercase v = "telecom".toList then MobileVendor.Telecom
  else if toLowercase v = "10086 移动".toList ∨ toLowercase v = "10086".toList ∨
      toLowercase v = "mobile".toList then MobileVendor.Mobile
  else if toLowercase v = "10099 广电".toList ∨ toLowercase v = "10099".toList ∨
      toLowercase v = "cbn".toList then MobileVendor.Cbn
  else MobileVendor.Others

/-- Follows the spec wording for the normalizer (claim C2), independently of
the source: start at offset 0; add 1 if the string starts with `+`; add 2 if
the remainder then starts with `86`; add 1 more if the remaining substring
satisfies `is_mobile` and starts with `0`; return the slice from the final
offset to the end.  The spec counts characters; since the stripped prefixes
are ASCII, character and byte offsets agree here. -/
def to_standard_format_spec (s : List Char) : List Char :=
  s.drop
    ((if List.isPrefixOf ['+'] s then 1 else 0) +
      (if List.isPrefixOf ['8', '6'] (s.drop (if List.isPrefixOf ['+'] s then 1 else 0)) then 2
        else 0) +
      (if is_mobile (s.drop ((if List.isPrefixOf ['+'] s then 1 else 0) +
              (if List.isPrefixOf ['8', '6']
                  (s.drop (if List.isPrefixOf ['+'] s then 1 else 0)) then 2 else 0))) &&
          List.isPrefixOf ['0'] (s.drop ((if List.isPrefixOf ['+'] s then 1 else 0) +
            (if List.isPrefixOf ['8', '6']
                (s.drop (if List.isPrefixOf ['+'] s then 1 else 0)) then 2 else 0))) then 1
        else 0))

/-- Follows the spec wording for the segment extractor (claim C1),
independently of the source: the five branches in priority order, with the
slices counted in characters, where "the first k characters" and
"characters [2,6)" exist only when the string is long enough (the spec's
stated failure mode, modelled as `none`), and "its first two characters"
can only be inspected when they exist. -/
def get_segment_spec (s : List Char) : Option (PhoneType × List Char) :=
  if is_mobile s then
    if 7 ≤ s.length then some (PhoneType.Mobile, s.take 7) else none
  else if is_idd s then
    if 6 ≤ s.length then some (PhoneType.Idd, (s.drop 2).take 4) else none
  else if is_service s then some (PhoneType.Service, s)
  else if List.isPrefixOf ['0', '1', '0'] s then
    if 3 ≤ s.length then some (PhoneType.Tel, s.take 3) else none
  else if s.length < 2 then none
  else if s.take 2 = ['0', '2'] then
    if 3 ≤ s.length then some (PhoneType.Tel, s.take 3) else none
  else if 4 ≤ s.length then some (PhoneType.Tel, s.take 4) else none

/-- Follows the spec wording for the service predicate (claim C3),
independently of the source: the digit `1` followed by exactly 7 digits, or
a 5-digit code starting with `1` or `9`; nothing else. -/
def is_service_spec (s : List Char) : Bool :=
  match s with
  | c :: rest =>
      (c == '1' && rest.length == 7 && rest.all Char.isDigit) ||
        ((c == '1' || c == '9') && rest.length == 4 && rest.all Char.isDigit)
  | [] => false

lemma length_le_of_isPrefixOf {p s : List Char} (h : List.isPrefixOf p s = true) :
    p.length ≤ s.length :=
  ( List.isPrefixOf_iff_prefix.mp h).length_le

lemma take_eq_of_isPrefixOf {p s : List Char} (h : List.isPrefixOf p s = true) :
    s.take p.length = p :=
  ( List.prefix_iff_eq_take.mp (List.isPrefixOf_iff_prefix.mp h)).symm

lemma dropPrefixOpt_cases (p s : List Char) :
    (List.isPrefixOf p s = true ∧ s = p ++ dropPrefixOpt p s) ∨
      (List.isPrefixOf p s = false ∧ dropPrefixOpt p s = s) := by
  unfold dropPrefixOpt
  by_cases h : List.isPrefixOf p s = true
  · left
    refine ⟨h, ?_⟩
    obtain ⟨t, ht⟩ := List.isPrefixOf_iff_prefix.mp h
    simp [h, ← ht, List.drop_left]
  · right
    simp [h]

lemma dropPrefixOpt_length_le (p s : List Char) : (dropPrefixOpt p s).length ≤ s.length := by
  unfold dropPrefixOpt
  split
  · simp
  · exact Nat.le_refl _

lemma mobileCore_shape {t : List Char} (h : mobileCore t = true) :
    ∃ c ds, t = '1' :: c :: ds ∧ '3' ≤ c ∧ c ≤ '9' ∧ ds.length = 9 ∧
      ds.all isNd = true := by
  match t with
  | [] => simp [mobileCore] at h
  | [x] => simp [mobileCore] at h
  | x :: c :: rest =>
    simp only [mobileCore, Bool.and_eq_true, beq_iff_eq, decide_eq_true_eq] at h
    exact ⟨c, rest, by simp [h.1.1.1.1], h.1.1.1.2, h.1.1.2, h.1.2, h.2⟩

lemma is_mobile_length {s : List Char} (h : is_mobile s = true) : 11 ≤ s.length := by
  unfold is_mobile at h
  obtain ⟨c, ds, ht, _, _, hlen, _⟩ := mobileCore_shape h
  have h1 := dropPrefixOpt_length_le ['+'] s
  have h2 := dropPrefixOpt_length_le ['8', '6'] (dropPrefixOpt ['+'] s)
  have h3 := dropPrefixOpt_length_le ['0'] (dropPrefixOpt ['8', '6'] (dropPrefixOpt ['+'] s))
  rw [ht] at h3
  simp only [List.length_cons, hlen] at h3
  omega

lemma is_telephone_length {s : List Char} (h : is_telephone s = true) : 10 ≤ s.length := by
  unfold is_telephone telephoneCore at h
  have h1 := dropPrefixOpt_length_le ['+'] s
  have h2 := dropPrefixOpt_length_le ['8', '6'] (dropPrefixOpt ['+'] s)
  match hm : dropPrefixOpt ['8', '6'] (dropPrefixOpt ['+'] s) with
  | [] => rw [hm] at h; simp at h
  | x :: rest =>
    rw [hm] at h h2
    simp only [Bool.and_eq_true, decide_eq_true_eq] at h
    have htw : (rest.takeWhile isNd).length ≤ rest.length :=
      (List.takeWhile_sublist _).length_le
    have h9 := h.2.1.1
    simp only [List.length_cons] at h2
    omega

lemma is_idd_shape {s : List Char} (h : is_idd s = true) :
    ∃ rest, s = '0' :: '0' :: rest ∧ 8 ≤ rest.length ∧ rest.all isNd = true := by
  match s with
  | [] => simp [is_idd] at h
  | [x] => simp [is_idd] at h
  | a :: b :: rest =>
    simp only [is_idd, Bool.and_eq_true, beq_iff_eq, decide_eq_true_eq] at h
    exact ⟨rest, by simp [h.1.1.1, h.1.1.2], h.1.2, h.2⟩

lemma is_mobile_iff (s : List Char) :
    is_mobile s = true ↔
      ∃ p e z c ds, (p = [] ∨ p = ['+']) ∧ (e = [] ∨ e = ['8', '6']) ∧
        (z = [] ∨ z = ['0']) ∧ '3' ≤ c ∧ c ≤ '9' ∧ ds.length = 9 ∧
        ds.all isNd = true ∧ s = p ++ e ++ z ++ '1' :: c :: ds := by
  constructor
  · intro h
    unfold is_mobile at h
    obtain ⟨c, ds, ht, h3, h9, hlen, hdig⟩ := mobileCore_shape h
    rcases dropPrefixOpt_cases ['+'] s with ⟨hp, hs1⟩ | ⟨hp, hs1⟩ <;>
      rcases dropPrefixOpt_cases ['8', '6'] (dropPrefixOpt ['+'] s) with ⟨he, hs2⟩ | ⟨he, hs2⟩ <;>
      rcases dropPrefixOpt_cases ['0']
        (dropPrefixOpt ['8', '6'] (dropPrefixOpt ['+'] s)) with ⟨hz, hs3⟩ | ⟨hz, hs3⟩
    · refine ⟨['+'], ['8', '6'], ['0'], c, ds, by simp, by simp, by simp, h3, h9, hlen, hdig, ?_⟩
      rw [ht] at hs3; rw [hs3] at hs2; rw [hs2] at hs1; rw [hs1]; simp
    · refine ⟨['+'], ['8', '6'], [], c, ds, by simp, by simp, by simp, h3, h9, hlen, hdig, ?_⟩
      rw [hs3] at ht; rw [ht] at hs2; rw [hs2] at hs1; rw [hs1]; simp
    · refine ⟨['+'], [], ['0'], c, ds, by simp, by simp, by simp, h3, h9, hlen, hdig, ?_⟩
      rw [ht] at hs3; rw [hs2] at hs3; rw [hs3] at hs1; rw [hs1]; simp
    · refine ⟨['+'], [], [], c, ds, by simp, by simp, by simp, h3, h9, hlen, hdig, ?_⟩
      rw [hs3] at ht; rw [hs2] at ht; rw [ht] at hs1; rw [hs1]; simp
    · refine ⟨[], ['8', '6'], ['0'], c, ds, by simp, by simp, by simp, h3, h9, hlen, hdig, ?_⟩
      rw [ht] at hs3; rw [hs3] at hs2; rw [hs1] at hs2; rw [hs2]; simp
    · refine ⟨[], ['8', '6'], [], c, ds, by simp, by simp, by simp, h3, h9, hlen, hdig, ?_⟩
      rw [hs3] at ht; rw [ht] at hs2; rw [hs1] at hs2; rw [hs2]; simp
    · refine ⟨[], [], ['0'], c, ds, by simp, by simp, by simp, h3, h9, hlen, hdig, ?_⟩
      rw [ht] at hs3; rw [hs2] at hs3; rw [hs1] at hs3; rw [hs3]; simp
    · refine ⟨[], [], [], c, ds, by simp, by simp, by simp, h3, h9, hlen, hdig, ?_⟩
      rw [hs3] at ht; rw [hs2] at ht; rw [hs1] at ht; rw [ht]; simp
  · rintro ⟨p, e, z, c, ds, hp, he, hz, h3, h9, hlen, hdig, hs⟩
    subst hs
    rcases hp with hp | hp <;> rcases he with he | he <;> rcases hz with hz | hz <;> subst hp he hz <;>
      simp [is_mobile, dropPrefixOpt, List.isPrefixOf, mobileCore, h3, h9, hlen, hdig]

lemma utf8Len_of_ascii {c : Char} (h : asciiChar c = true) : utf8Len c = 1 := by
  unfold asciiChar at h
  simp only [decide_eq_true_eq] at h
  simp [utf8Len, h]

lemma allAscii_cons {c : Char} {t : List Char} (h : allAscii (c :: t) = true) :
    asciiChar c = true ∧ allAscii t = true := by
  unfold allAscii at h ⊢
  simpa [List.all_cons, Bool.and_eq_true] using h

lemma allAscii_drop {s : List Char} (h : allAscii s = true) (n : Nat) :
    allAscii (s.drop n) = true := by
  unfold allAscii at h ⊢
  rw [List.all_eq_true] at h ⊢
  intro x hx
  exact h x (List.drop_subset n s hx)

lemma dropBytes_zero (s : List Char) : dropBytes s 0 = some s := by
  cases s <;> rfl

lemma takeBytes_ascii {s : List Char} (h : allAscii s = true) :
    ∀ n, takeBytes s n = if n ≤ s.length then some (s.take n) else none := by
  induction s with
  | nil =>
    intro n
    cases n with
    | zero => simp [takeBytes]
    | succ m => simp [takeBytes]
  | cons c t ih =>
    intro n
    obtain ⟨hc, ht⟩ := allAscii_cons h
    have h1 : utf8Len c = 1 := utf8Len_of_ascii hc
    cases n with
    | zero => simp [takeBytes]
    | succ m =>
      have hle : utf8Len c ≤ m + 1 := by omega
      simp only [takeBytes, if_pos hle, h1, Nat.add_sub_cancel, ih ht m]
      by_cases hm : m ≤ t.length
      · simp [hm, List.take_succ_cons]
      · simp [hm]

lemma dropBytes_ascii {s : List Char} (h : allAscii s = true) :
    ∀ n, dropBytes s n = if n ≤ s.length then some (s.drop n) else none := by
  induction s with
  | nil =>
    intro n
    cases n with
    | zero => simp [dropBytes]
    | succ m => simp [dropBytes]
  | cons c t ih =>
    intro n
    obtain ⟨hc, ht⟩ := allAscii_cons h
    have h1 : utf8Len c = 1 := utf8Len_of_ascii hc
    cases n with
    | zero => simp [dropBytes]
    | succ m =>
      have hle : utf8Len c ≤ m + 1 := by omega
      simp only [dropBytes, if_pos hle, h1, Nat.add_sub_cancel, ih ht m]
      by_cases hm : m ≤ t.length
      · simp [hm, List.drop_succ_cons]
      · simp [hm]

lemma dropBytes_of_ascii_take {s : List Char} :
    ∀ k, k ≤ s.length → allAscii (s.take k) = true → dropBytes s k = some (s.drop k) := by
  induction s with
  | nil =>
    intro k hk _
    cases k with
    | zero => rfl
    | succ m => simp at hk
  | cons c t ih =>
    intro k hk ha
    cases k with
    | zero => rfl
    | succ m =>
      rw [List.take_succ_cons] at ha
      obtain ⟨hc, ht⟩ := allAscii_cons ha
      have h1 : utf8Len c = 1 := utf8Len_of_ascii hc
      have hle : utf8Len c ≤ m + 1 := by omega
      simp only [List.length_cons] at hk
      simp only [dropBytes, h1, Nat.add_sub_cancel, List.drop_succ_cons]
      rw [if_pos (show (1 : Nat) ≤ m + 1 by omega)]
      exact ih m (by omega) ht

lemma sliceBytes_ascii {s : List Char} (h : allAscii s = true) (a b : Nat) :
    sliceBytes s a b = if a ≤ b ∧ b ≤ s.length then some ((s.take b).drop a) else none := by
  unfold sliceBytes
  by_cases hab : a ≤ b
  · rw [if_pos hab, dropBytes_ascii h a]
    by_cases hal : a ≤ s.length
    · rw [if_pos hal]
      simp only []
      rw [takeBytes_ascii (allAscii_drop h a) (b - a)]
      by_cases hb : b ≤ s.length
      · rw [if_pos (by simp only [List.length_drop]; omega), if_pos ⟨hab, hb⟩]
        rw [List.take_drop, Nat.add_sub_cancel' hab]
      · rw [if_neg (by simp only [List.length_drop]; omega), if_neg (by
          intro hh
          exact hb hh.2)]
    · rw [if_neg hal, if_neg (by
        intro hh
        exact hal (Nat.le_trans hab hh.2))]
  · rw [if_neg hab, if_neg (by
      intro hh
      exact hab hh.1)]

lemma tsf_offsets (s : List Char) :
    ∃ k, k ≤ 4 ∧ to_standard_format s = some (s.drop k) ∧
      to_standard_format_spec s = s.drop k := by
  unfold to_standard_format to_standard_format_spec
  rw [dropBytes_zero]
  simp only []
  by_cases bp : List.isPrefixOf ['+'] s = true
  · have h1 : 1 ≤ s.length := by simpa using length_le_of_isPrefixOf bp
    have hp1 : s.take 1 = ['+'] := take_eq_of_isPrefixOf bp
    have db1 : dropBytes s 1 = some (s.drop 1) :=
      dropBytes_of_ascii_take 1 h1 (by rw [hp1]; decide)
    simp only [if_pos bp]
    rw [db1]
    simp only []
    by_cases b86 : List.isPrefixOf ['8', '6'] (s.drop 1) = true
    · have h3 : 3 ≤ s.length := by
        have := length_le_of_isPrefixOf b86
        simp only [List.length_drop, List.length_cons, List.length_nil] at this
        omega
      have ht2 : (s.drop 1).take 2 = ['8', '6'] := take_eq_of_isPrefixOf b86
      have hp3 : s.take 3 = ['+', '8', '6'] := by
        rw [show (3 : Nat) = 1 + 2 from rfl, List.take_add, hp1, ht2]
        rfl
      have db3 : dropBytes s 3 = some (s.drop 3) :=
        dropBytes_of_ascii_take 3 h3 (by rw [hp3]; decide)
      simp only [if_pos b86]
      rw [show (1 : Nat) + 2 = 3 from rfl, db3]
      simp only []
      by_cases bm : (is_mobile (s.drop 3) && List.isPrefixOf ['0'] (s.drop 3)) = true
      · have hz : List.isPrefixOf ['0'] (s.drop 3) = true := by
          rw [Bool.and_eq_true] at bm
          exact bm.2
        have h4 : 4 ≤ s.length := by
          have := length_le_of_isPrefixOf hz
          simp only [List.length_drop, List.length_cons, List.length_nil] at this
          omega
        have hz1 : (s.drop 3).take 1 = ['0'] := take_eq_of_isPrefixOf hz
        have hp4 : s.take 4 = ['+', '8', '6', '0'] := by
          rw [show (4 : Nat) = 3 + 1 from rfl, List.take_add, hp3, hz1]
          rfl
        have db4 : dropBytes s 4 = some (s.drop 4) :=
          dropBytes_of_ascii_take 4 h4 (by rw [hp4]; decide)
        simp only [if_pos bm]
        rw [show (3 : Nat) + 1 = 4 from rfl, db4]
        exact ⟨4, by omega, rfl, rfl⟩
      · simp only [if_neg bm]
        rw [db3]
        exact ⟨3, by omega, rfl, rfl⟩
    · simp only [if_neg b86]
      rw [db1]
      simp only []
      by_cases bm : (is_mobile (s.drop 1) && List.isPrefixOf ['0'] (s.drop 1)) = true
      · have hz : List.isPrefixOf ['0'] (s.drop 1) = true := by
          rw [Bool.and_eq_true] at bm
          exact bm.2
        have h2 : 2 ≤ s.length := by
          have := length_le_of_isPrefixOf hz
          simp only [List.length_drop, List.length_cons, List.length_nil] at this
          omega
        have hz1 : (s.drop 1).take 1 = ['0'] := take_eq_of_isPrefixOf hz
        have hp2 : s.take 2 = ['+', '0'] := by
          rw [show (2 : Nat) = 1 + 1 from rfl, List.take_add, hp1, hz1]
          rfl
        have db2 : dropBytes s 2 = some (s.drop 2) :=
          dropBytes_of_ascii_take 2 h2 (by rw [hp2]; decide)
        simp only [if_pos bm]
        rw [show (1 : Nat) + 1 = 2 from rfl, db2]
        exact ⟨2, by omega, rfl, rfl⟩
      · simp only [if_neg bm]
        rw [db1]
        exact ⟨1, by omega, rfl, rfl⟩
  · simp only [if_neg bp, Nat.zero_add, List.drop_zero]
    rw [dropBytes_zero]
    simp only []
    by_cases b86 : List.isPrefixOf ['8', '6'] s = true
    · have h2 : 2 ≤ s.length := by simpa using length_le_of_isPrefixOf b86
      have hp2 : s.take 2 = ['8', '6'] := take_eq_of_isPrefixOf b86
      have db2 : dropBytes s 2 = some (s.drop 2) :=
        dropBytes_of_ascii_take 2 h2 (by rw [hp2]; decide)
      simp only [if_pos b86]
      rw [db2]
      simp only []
      by_cases bm : (is_mobile (s.drop 2) && List.isPrefixOf ['0'] (s.drop 2)) = true
      · have hz : List.isPrefixOf ['0'] (s.drop 2) = true := by
          rw [Bool.and_eq_true] at bm
          exact bm.2
        have h3 : 3 ≤ s.length := by
          have := length_le_of_isPrefixOf hz
          simp only [List.length_drop, List.length_cons, List.length_nil] at this
          omega
        have hz1 : (s.drop 2).take 1 = ['0'] := take_eq_of_isPrefixOf hz
        have hp3 : s.take 3 = ['8', '6', '0'] := by
          rw [show (3 : Nat) = 2 + 1 from rfl, List.take_add, hp2, hz1]
          rfl
        have db3 : dropBytes s 3 = some (s.drop 3) :=
          dropBytes_of_ascii_take 3 h3 (by rw [hp3]; decide)
        simp only [if_pos bm]
        rw [show (2 : Nat) + 1 = 3 from rfl, db3]
        exact ⟨3, by omega, rfl, rfl⟩
      · simp only [if_neg bm, Nat.add_zero]
        rw [db2]
        exact ⟨2, by omega, rfl, rfl⟩
    · simp only [if_neg b86, Nat.add_zero, List.drop_zero]
      rw [dropBytes_zero]
      simp only []
      by_cases bm : (is_mobile s && List.isPrefixOf ['0'] s) = true
      · have hz : List.isPrefixOf ['0'] s = true := by
          rw [Bool.and_eq_true] at bm
          exact bm.2
        have h1 : 1 ≤ s.length := by simpa using length_le_of_isPrefixOf hz
        have hp1 : s.take 1 = ['0'] := take_eq_of_isPrefixOf hz
        have db1 : dropBytes s 1 = some (s.drop 1) :=
          dropBytes_of_ascii_take 1 h1 (by rw [hp1]; decide)
        simp only [if_pos bm]
        rw [db1]
        exact ⟨1, by omega, rfl, rfl⟩
      · simp only [if_neg bm]
        rw [dropBytes_zero]
        exact ⟨0, by omega, by rw [List.drop_zero], rfl⟩

lemma tsf_eval (s : List Char) : to_standard_format s = some (to_standard_format_spec s) := by
  obtain ⟨k, _, h1, h2⟩ := tsf_offsets s
  rw [h1, h2]

lemma tsf_spec_head1 (t : List Char) : to_standard_format_spec ('1' :: t) = '1' :: t := by
  simp [to_standard_format_spec, List.isPrefixOf]

lemma tsf_spec_mobile_parts {p e z : List Char} {c : Char} {ds : List Char}
    (hp : p = [] ∨ p = ['+']) (he : e = [] ∨ e = ['8', '6']) (hz : z = [] ∨ z = ['0'])
    (h3 : '3' ≤ c) (h9 : c ≤ '9') (hlen : ds.length = 9) (hdig : ds.all isNd = true) :
    to_standard_format_spec (p ++ e ++ z ++ '1' :: c :: ds) = '1' :: c :: ds := by
  rcases hp with hp | hp <;> rcases he with he | he <;> rcases hz with hz | hz <;>
    subst hp he hz <;>
    simp [to_standard_format_spec, List.isPrefixOf, is_mobile, dropPrefixOpt, mobileCore,
      h3, h9, hlen, hdig]

lemma get_segment_eval_ascii {s : List Char} (ha : allAscii s = true) :
    get_segment s = get_segment_spec s := by
  have htb : ∀ n, takeBytes s n = if n ≤ s.length then some (s.take n) else none :=
    takeBytes_ascii ha
  have hsb : sliceBytes s 2 6 =
      if 2 ≤ 6 ∧ 6 ≤ s.length then some ((s.take 6).drop 2) else none :=
    sliceBytes_ascii ha 2 6
  unfold get_segment get_segment_spec
  rw [htb 7, htb 2, htb 3, htb 4, hsb]
  by_cases hm : is_mobile s = true
  · simp only [if_pos hm]
    by_cases h7 : 7 ≤ s.length
    · simp [h7]
    · simp [h7]
  · simp only [if_neg hm]
    by_cases hi : is_idd s = true
    · simp only [if_pos hi]
      by_cases h6 : 6 ≤ s.length
      · simp [h6, List.take_drop]
      · simp [h6]
    · simp only [if_neg hi]
      by_cases hsv : is_service s = true
      · simp [hsv]
      · simp only [if_neg hsv]
        by_cases h010 : List.isPrefixOf ['0', '1', '0'] s = true
        · simp only [if_pos h010]
          by_cases h3 : 3 ≤ s.length
          · simp [h3]
          · simp [h3]
        · simp only [if_neg h010]
          by_cases h2 : 2 ≤ s.length
          · simp only [if_pos h2]
            have hlen2 : (s.take 2).length = 2 := by
              simp only [List.length_take]
              omega
            have h2' : ¬ s.length < 2 := by omega
            by_cases h02 : s.take 2 = ['0', '2']
            · have hpf : List.isPrefixOf ['0', '2'] (s.take 2) = true := by
                rw [h02]
                decide
              simp only [if_pos hpf, if_neg h2', if_pos h02]
              by_cases h3 : 3 ≤ s.length
              · simp [h3]
              · simp [h3]
            · have hpf : ¬ List.isPrefixOf ['0', '2'] (s.take 2) = true := by
                intro hc
                exact h02 (( List.isPrefixOf_iff_prefix.mp hc).eq_of_length
                  (by rw [hlen2]; rfl)).symm
              simp only [if_neg hpf, if_neg h2', if_neg h02]
              by_cases h4 : 4 ≤ s.length
              · simp [h4]
              · simp [h4]
          · have h2' : s.length < 2 := by omega
            simp [h2, h2']

/-- C1 (counterexample): the five-branch character-count description of
`get_segment` fails on the program for non-ASCII decimal digits.  On the
string `0` followed by nine U+0660 (ARABIC-INDIC ZERO) digits — which
reaches the final branch — the claim prescribes `(Tel, the first 4
characters)`, but the program's byte test `number[..2]` lands inside the
two-byte second character and panics. -/
theorem get_segment_spec_fails_on_unicode_digits :
    get_segment ('0' :: List.replicate 9 '٠') = none ∧
      get_segment_spec ('0' :: List.replicate 9 '٠') =
        some (PhoneType.Tel, '0' :: List.replicate 3 '٠') := by
  decide

/-- C1 (amended): on every input consisting solely of ASCII characters —
where Rust byte offsets and character offsets coincide — `get_segment`
computes its result by the fixed five-branch priority definition of the
spec: mobile gives the first 7 characters, else IDD gives characters
`[2,6)`, else service gives the whole number, else `010`/`02x` gives the
first 3 characters, else the first 4 characters (each slice existing only
when the input is long enough, cf. the spec's failure mode). -/
theorem get_segment_follows_spec_on_ascii (s : List Char) (ha : allAscii s = true) :
    get_segment s = get_segment_spec s :=
  get_segment_eval_ascii ha

/-- C1 (witness): the five-branch definition at the concrete ASCII number
`02712345678`. -/
theorem get_segment_follows_spec_on_ascii_witness :
    allAscii ("02712345678".toList) = true ∧
      get_segment ("02712345678".toList) = get_segment_spec ("02712345678".toList) :=
  ⟨by decide, get_segment_follows_spec_on_ascii _ (by decide)⟩

/-- C2: `to_standard_format` computes its result by the four-step
prefix-stripping algorithm of the spec (strip `+`, then `86`, then a trunk
`0` only when the remainder is a valid mobile number), returning the slice
of the input from the final offset and never hitting an out-of-bounds or
non-boundary index — the stripped prefixes are one-byte ASCII characters,
so every byte offset the source uses is a valid character offset. -/
theorem to_standard_format_follows_spec (s : List Char) :
    to_standard_format s = some (to_standard_format_spec s) :=
  tsf_eval s

/-- C3: the code's `is_service` regex class `[1,9]` also contains the comma
character, so the string `,1234` — which starts with a non-digit and is not
a code starting with `1` or `9` — is accepted by the code even though the
spec's wording (`is_service_spec`) rejects it. -/
theorem is_service_accepts_comma :
    is_service (",1234".toList) = true ∧ is_service_spec (",1234".toList) = false := by
  decide

/-- C4 (counterexample): `to_standard_format` is not idempotent on every
string — on `"++"` the first pass strips one `+` and a second pass strips
the second `+`. -/
theorem to_standard_format_not_idempotent :
    ¬ ((to_standard_format ("++".toList)).bind to_standard_format =
        to_standard_format ("++".toList)) := by
  decide

/-- C4 (amended): `to_standard_format` is idempotent on mobile numbers: for
every `s` with `is_mobile s`, applying the normalizer to its own output
returns that output unchanged. -/
theorem to_standard_format_idem_on_mobile (s : List Char) (h : is_mobile s = true) :
    (to_standard_format s).bind to_standard_format = to_standard_format s := by
  obtain ⟨p, e, z, c, ds, hp, he, hz, h3, h9, hlen, hdig, hs⟩ := (is_mobile_iff s).mp h
  subst hs
  rw [tsf_eval, tsf_spec_mobile_parts hp he hz h3 h9 hlen hdig]
  show (to_standard_format ('1' :: c :: ds)) = _
  rw [tsf_eval, tsf_spec_head1]

/-- C4 (witness): the amended idempotence at the concrete mobile number
`+86013800138000`. -/
theorem to_standard_format_idem_on_mobile_witness :
    is_mobile ("+86013800138000".toList) = true ∧
      (to_standard_format ("+86013800138000".toList)).bind to_standard_format =
        to_standard_format ("+86013800138000".toList) :=
  ⟨by decide, to_standard_format_idem_on_mobile _ (by decide)⟩

/-- C5 (counterexample): `is_phone` pre-validation does not make
`get_segment` safe on the program's full domain.  The string `13` followed
by nine U+0660 digits passes `is_mobile` (the regex `\d` is Unicode), so
`is_phone` accepts it, but `&number[..7]` lands byte 7 inside the third
(two-byte) character and panics. -/
theorem is_phone_accepts_but_get_segment_panics :
    is_phone ('1' :: '3' :: List.replicate 9 '٠') = true ∧
      get_segment ('1' :: '3' :: List.replicate 9 '٠') = none := by
  decide

/-- C5 (amended): on inputs consisting solely of ASCII characters,
pre-validation with `is_phone` makes `get_segment` safe — every index and
slice taken in the matched branch is in bounds, so `get_segment` returns
normally (`isSome`, never the `none` that models a panic). -/
theorem get_segment_some_of_ascii_is_phone (s : List Char) (ha : allAscii s = true)
    (h : is_phone s = true) : (get_segment s).isSome = true := by
  rw [get_segment_eval_ascii ha]
  unfold is_phone at h
  simp only [Bool.or_eq_true] at h
  unfold get_segment_spec
  by_cases hm : is_mobile s = true
  · have h11 := is_mobile_length hm
    simp [hm, show 7 ≤ s.length by omega]
  · simp only [if_neg hm]
    by_cases hi : is_idd s = true
    · obtain ⟨rest, hs, hr, _⟩ := is_idd_shape hi
      have h10 : 10 ≤ s.length := by
        rw [hs]
        simp only [List.length_cons]
        omega
      simp [hi, show 6 ≤ s.length by omega]
    · simp only [if_neg hi]
      by_cases hsv : is_service s = true
      · simp [hsv]
      · simp only [if_neg hsv]
        have ht : is_telephone s = true := by
          rcases h with ((h | h) | h) | h
          · exact absurd h hm
          · exact h
          · exact absurd h hsv
          · exact absurd h hi
        have h10 := is_telephone_length ht
        by_cases h010 : List.isPrefixOf ['0', '1', '0'] s = true
        · simp [h010, show 3 ≤ s.length by omega]
        · simp only [if_neg h010, if_neg (show ¬ s.length < 2 by omega)]
          by_cases h02 : s.take 2 = ['0', '2']
          · simp [h02, show 3 ≤ s.length by omega]
          · simp [h02, show 4 ≤ s.length by omega]

/-- C5 (witness): the safety guarantee at the concrete ASCII telephone
number `01012345678`. -/
theorem get_segment_some_of_ascii_is_phone_witness :
    allAscii ("01012345678".toList) = true ∧ is_phone ("01012345678".toList) = true ∧
      (get_segment ("01012345678".toList)).isSome = true :=
  ⟨by decide, by decide, get_segment_some_of_ascii_is_phone _ (by decide) (by decide)⟩

/-- C6 (counterexample): a short input need not produce the claimed bounds
error — it can silently return a byte-truncated key.  Three U+0660 digits
(3 characters, 6 bytes) reach the final first-4-characters branch being
only 3 characters long, yet the program returns `(Tel, ٠٠)` — the first 4
bytes, i.e. 2 characters — instead of signalling an error. -/
theorem get_segment_truncates_unicode_short_tel :
    is_mobile (List.replicate 3 '٠') = false ∧ is_idd (List.replicate 3 '٠') = false ∧
      is_service (List.replicate 3 '٠') = false ∧
      List.isPrefixOf ['0', '1', '0'] (List.replicate 3 '٠') = false ∧
      (List.replicate 3 '٠').take 2 ≠ ['0', '2'] ∧
      (List.replicate 3 '٠').length < 4 ∧
      get_segment (List.replicate 3 '٠') = some (PhoneType.Tel, List.replicate 2 '٠') := by
  decide

/-- C6 (amended): on inputs consisting solely of ASCII characters, when the
input reaches one of the landline branches and is shorter than the slice
that branch takes, `get_segment` signals the bounds error (modelled by
`none`, a Rust panic) instead of returning a truncated key: with fewer than
2 characters the `number[..2]` test itself is out of bounds; a 2-character
`02` string is too short for the 3-character slice; and a string of fewer
than 4 characters reaching the final branch is too short for the
4-character slice. -/
theorem get_segment_ascii_short_tel_panics (s : List Char) (ha : allAscii s = true)
    (hm : is_mobile s = false) (hi : is_idd s = false) (hsv : is_service s = false) :
    (s.length < 2 → get_segment s = none) ∧
      (s.take 2 = ['0', '2'] → s.length < 3 → get_segment s = none) ∧
      (List.isPrefixOf ['0', '1', '0'] s = false → s.take 2 ≠ ['0', '2'] →
        s.length < 4 → get_segment s = none) := by
  rw [get_segment_eval_ascii ha]
  refine ⟨?_, ?_, ?_⟩
  · intro h2
    have h010 : ¬ List.isPrefixOf ['0', '1', '0'] s = true := by
      intro hc
      have := length_le_of_isPrefixOf hc
      simp only [List.length_cons, List.length_nil] at this
      omega
    unfold get_segment_spec
    simp [hm, hi, hsv, h010, h2]
  · intro h02 h3
    have hge : 2 ≤ s.length := by
      have : (s.take 2).length = 2 := by rw [h02]; rfl
      simp only [List.length_take] at this
      omega
    have hs : s = ['0', '2'] := by
      rw [← List.take_of_length_le (show s.length ≤ 2 by omega), h02]
    subst hs
    decide
  · intro h010 h02 h4
    unfold get_segment_spec
    by_cases h2 : s.length < 2
    · simp [hm, hi, hsv, h010, h2]
    · simp [hm, hi, hsv, h010, h2, h02, show ¬ 4 ≤ s.length by omega]

/-- C6 (witness): the 2-character ASCII input `33` reaches the final
first-4-characters branch and `get_segment` signals the bounds error. -/
theorem get_segment_ascii_short_tel_panics_witness :
    allAscii ("33".toList) = true ∧ is_mobile ("33".toList) = false ∧
      is_idd ("33".toList) = false ∧ is_service ("33".toList) = false ∧
      get_segment ("33".toList) = none :=
  ⟨by decide, by decide, by decide, by decide,
    (get_segment_ascii_short_tel_panics _ (by decide) (by decide) (by decide)
        (by decide)).2.2 (by decide) (by decide) (by decide)⟩

/-- C7: `to_standard_format` is the identity on IDD numbers — a string
accepted by `is_idd` starts with `00`, so neither the `+` strip, the `86`
strip, nor the mobile-gated trunk-`0` strip fires. -/
theorem to_standard_format_fixes_idd (s : List Char) (h : is_idd s = true) :
    to_standard_format s = some s := by
  obtain ⟨rest, hs, hlen, hdig⟩ := is_idd_shape h
  subst hs
  rw [tsf_eval]
  have hnm : is_mobile ('0' :: '0' :: rest) = false := by
    cases rest with
    | nil => decide
    | cons a t => simp [is_mobile, dropPrefixOpt, List.isPrefixOf, mobileCore]
  simp [to_standard_format_spec, List.isPrefixOf, hnm]

/-- C7 (witness): the identity at the concrete IDD number `008512345678`. -/
theorem to_standard_format_fixes_idd_witness :
    is_idd ("008512345678".toList) = true ∧
      to_standard_format ("008512345678".toList) = some ("008512345678".toList) :=
  ⟨by decide, to_standard_format_fixes_idd _ (by decide)⟩

/-- C8: string conversion round-trips for both enumerations — for every
variant of `PhoneType` and of `MobileVendor`, including the `Others`
variants, parsing the canonical display string yields the variant back. -/
theorem enum_to_from_string_roundtrip :
    (∀ v : PhoneType, PhoneType.from_string (PhoneType.to_string v) = v) ∧
      (∀ w : MobileVendor, MobileVendor.from_string (MobileVendor.to_string w) = w) := by
  constructor
  · intro v
    cases v <;> decide
  · intro w
    cases w <;> decide

/-- C9: `to_standard_format` is total — on every input, including the empty
string and strings with multi-byte characters, all four byte indexings are
in bounds and on character boundaries (the stripped prefixes are one-byte
ASCII characters), so it returns normally, and its result is the input with
the first 0 to 4 characters removed. -/
theorem to_standard_format_total_suffix (s : List Char) :
    ∃ k, k ≤ 4 ∧ to_standard_format s = some (s.drop k) := by
  obtain ⟨k, hk, h1, _⟩ := tsf_offsets s
  exact ⟨k, hk, h1⟩

/-- C10: on the `+86`-prefixed mobile number `+8613800138000`, which
satisfies `is_mobile`, `get_segment` returns the first 7 characters of the
raw input — `+861380`, prefix characters included — paired with `Mobile`. -/
theorem get_segment_keeps_plus86 :
    get_segment ("+8613800138000".toList) =
      some (PhoneType.Mobile, "+861380".toList) := by
  decide

end PhoneUtils
